import Mathlib

/-!
Verification of `src/roster_assignment.py`.

The Python program is shallow-embedded below:

* CSV rows that survive validation become the `Interviewer` structure
  (string identity, name, optional email, per-shift availability flags and
  non-negative per-shift capacities — the record provider coerces capacities
  to non-negative integers, hence `Nat` fields).
* Python `dict`s keyed by interviewer identity become association lists
  (`List (String × α)`) with insertion-order semantics: inserting an existing
  key overwrites in place, a fresh key is appended (`dictInsert`).
* Python `float` arithmetic in `assign_slots` (`capacity / total_available *
  total_expected_slots`) is modelled by exact rational arithmetic (`ℚ`);
  `math.floor` becomes `Int.floor`.
* `raise ValueError(msg)` becomes `Except.error msg`; a normal return becomes
  `Except.ok`.  String apostrophes of the original messages are dropped.
* `int((14 * 60) / slot_duration)` (float division then truncation) equals
  floor division for every positive integer `slot_duration`, and is modelled
  by integer division on positive operands.
-/

/-- Python `shift.lower()`: lowercases each character.  Written as a map over
the underlying character list (extensionally `String.toLower`, but
kernel-reducible). -/
def strToLower (s : String) : String :=
  String.mk (s.data.map Char.toLower)

/-- A validated interviewer row (columns of the source CSV, after the record
provider's coercions). -/
structure Interviewer where
  Interviewer_ID : String
  Name : String
  Email : Option String
  Day_Available : Bool
  Night_Available : Bool
  Day_Slots : Nat
  Night_Slots : Nat
deriving DecidableEq

instance : DecidableEq (Except String (List (String × Int) × List Interviewer)) :=
  fun a b =>
    match a, b with
    | .error e, .error e' => if h : e = e' then isTrue (by rw [h]) else isFalse (by simp [h])
    | .ok x, .ok y => if h : x = y then isTrue (by rw [h]) else isFalse (by simp [h])
    | .error _, .ok _ => isFalse (by simp)
    | .ok _, .error _ => isFalse (by simp)

/-- Keys of an association list, in insertion order (Python `dict` keys). -/
def dictKeys (m : List (String × α)) : List String :=
  m.map Prod.fst

/-- Values of an association list, in insertion order (Python `dict.values()`). -/
def dictVals (m : List (String × α)) : List α :=
  m.map Prod.snd

/-- Python `d[k] = v`: overwrite if the key is present, append otherwise. -/
def dictInsert (m : List (String × α)) (k : String) (v : α) : List (String × α) :=
  if k ∈ dictKeys m then
    m.map (fun p => if p.1 = k then (p.1, v) else p)
  else m ++ [(k, v)]

/-- Python `d[k]` with an explicit default (the default is never reached at
the call sites below: every key looked up was previously inserted). -/
def dictGet (m : List (String × α)) (k : String) (d : α) : α :=
  match m with
  | [] => d
  | p :: rest => if p.1 = k then p.2 else dictGet rest k d

/-- Python `d[k] += 1` for integer-valued dicts. -/
def dictIncr (m : List (String × Int)) (k : String) : List (String × Int) :=
  m.map (fun p => if p.1 = k then (p.1, p.2 + 1) else p)

/-- Builds a dict over an interviewer list in iteration order
(the first loop of `assign_slots`, lines 168-174 of the source). -/
def buildDict (l : List Interviewer) (f : Interviewer → α) : List (String × α) :=
  l.foldl (fun m iv => dictInsert m iv.Interviewer_ID (f iv)) []

/-- Availability column for an already-validated lowercase shift
(lines 140-148: `Day_Available` for day, `Night_Available` for night). -/
def availFlag (shiftL : String) (iv : Interviewer) : Bool :=
  if shiftL = "day" then iv.Day_Available else iv.Night_Available

/-- Capacity column for an already-validated lowercase shift
(lines 140-148: `Day_Slots` for day, `Night_Slots` for night). -/
def slotCap (shiftL : String) (iv : Interviewer) : Nat :=
  if shiftL = "day" then iv.Day_Slots else iv.Night_Slots

/-- Line 151: interviewers available for the chosen shift. -/
def availableFor (shiftL : String) (interviewers : List Interviewer) : List Interviewer :=
  interviewers.filter (availFlag shiftL)

/-- Line 157: sum of the capacities of the available interviewers. -/
def totalAvailableFor (shiftL : String) (interviewers : List Interviewer) : Nat :=
  ((availableFor shiftL interviewers).map (slotCap shiftL)).sum

/-- Line 171: `ideal_slots = (capacity / total_available) * total_expected_slots`,
with the float arithmetic modelled exactly over `ℚ`. -/
def idealSlots (capacity totalAvail : Nat) (T : Int) : ℚ :=
  ((capacity : ℚ) / (totalAvail : ℚ)) * (T : ℚ)

/-- Line 172: `assigned = math.floor(ideal_slots)`. -/
def floorAssigned (capacity totalAvail : Nat) (T : Int) : Int :=
  Int.floor (idealSlots capacity totalAvail T)

/-- Line 174: `remainders[iid] = ideal_slots - assigned`. -/
def fracRemainder (capacity totalAvail : Nat) (T : Int) : ℚ :=
  idealSlots capacity totalAvail T - (floorAssigned capacity totalAvail T : ℚ)

/-- Lines 164-174: the `assignments` dict after the first loop. -/
def initialAssignments (shiftL : String) (interviewers : List Interviewer) (T : Int) :
    List (String × Int) :=
  buildDict (availableFor shiftL interviewers)
    (fun iv => floorAssigned (slotCap shiftL iv) (totalAvailableFor shiftL interviewers) T)

/-- Lines 164-174: the `remainders` dict after the first loop. -/
def initialRemainders (shiftL : String) (interviewers : List Interviewer) (T : Int) :
    List (String × ℚ) :=
  buildDict (availableFor shiftL interviewers)
    (fun iv => fracRemainder (slotCap shiftL iv) (totalAvailableFor shiftL interviewers) T)

/-- Line 181 sort key: Python sorts `remainders.items()` ascending on
`(-remainder, id)`, i.e. descending remainder with ties broken by ascending
identity.  `remOrder a b` says `a` comes no later than `b`.  Python compares
identity strings lexicographically by code point, which is the lexicographic
order on the underlying character lists (`String` order itself, but stated on
`.data` so that it is kernel-reducible). -/
def remOrder (a b : String × ℚ) : Prop :=
  b.2 < a.2 ∨ (a.2 = b.2 ∧ a.1.data ≤ b.1.data)

instance remOrder.decRel : DecidableRel remOrder := fun a b =>
  inferInstanceAs (Decidable (b.2 < a.2 ∨ (a.2 = b.2 ∧ a.1.data ≤ b.1.data)))

instance remOrder.isTotal : IsTotal (String × ℚ) remOrder where
  total a b := by
    rcases lt_trichotomy a.2 b.2 with h | h | h
    · exact Or.inr (Or.inl h)
    · rcases le_total a.1.data b.1.data with h' | h'
      · exact Or.inl (Or.inr ⟨h, h'⟩)
      · exact Or.inr (Or.inr ⟨h.symm, h'⟩)
    · exact Or.inl (Or.inl h)

instance remOrder.isTrans : IsTrans (String × ℚ) remOrder where
  trans a b c hab hbc := by
    rcases hab with hab | ⟨hab1, hab2⟩
    · rcases hbc with hbc | ⟨hbc1, hbc2⟩
      · exact Or.inl (lt_trans hbc hab)
      · exact Or.inl (hbc1 ▸ hab)
    · rcases hbc with hbc | ⟨hbc1, hbc2⟩
      · exact Or.inl (hab1 ▸ hbc)
      · exact Or.inr ⟨hab1.trans hbc1, hab2.trans hbc2⟩

/-- Line 181: `sorted(remainders.items(), key=lambda x: (-x[1], x[0]))`. -/
def sortedRemainders (shiftL : String) (interviewers : List Interviewer) (T : Int) :
    List (String × ℚ) :=
  List.insertionSort remOrder (initialRemainders shiftL interviewers T)

/-- Line 184-185: capacity of the interviewer found by
`next(iv for iv in available_interviewers if iv['Interviewer_ID'] == iid)`. -/
def findCapacity (avail : List Interviewer) (shiftL : String) (iid : String) : Nat :=
  ((avail.find? (fun iv => decide (iv.Interviewer_ID = iid))).map (slotCap shiftL)).getD 0

/-- Lines 181-188: the leftover-distribution loop.  Walks the sorted remainder
list once; while `remaining_slots > 0`, an interviewer still below capacity
gets one extra slot.  Returns the final `assignments` dict and the final
`remaining_slots` (used by the warning check at line 191). -/
def distributeRemaining (avail : List Interviewer) (shiftL : String) :
    List (String × ℚ) → List (String × Int) → Int → List (String × Int) × Int
  | [], assignments, remaining_slots => (assignments, remaining_slots)
  | p :: rest, assignments, remaining_slots =>
    if remaining_slots ≤ 0 then (assignments, remaining_slots)
    else if dictGet assignments p.1 0 < (findCapacity avail shiftL p.1 : Int) then
      distributeRemaining avail shiftL rest (dictIncr assignments p.1) (remaining_slots - 1)
    else
      distributeRemaining avail shiftL rest assignments remaining_slots

/-- Lines 164-192 for an already-validated lowercase shift: initial floor
assignment, then leftover distribution.  First component is the returned
`assignments` dict; second is the undistributable shortfall of line 191. -/
def allocateCore (shiftL : String) (interviewers : List Interviewer) (T : Int) :
    List (String × Int) × Int :=
  distributeRemaining (availableFor shiftL interviewers) shiftL
    (sortedRemainders shiftL interviewers T)
    (initialAssignments shiftL interviewers T)
    (T - (dictVals (initialAssignments shiftL interviewers T)).sum)

/-- `assign_slots` (lines 112-199).  Validation order follows the source:
positive target, then shift validity (after lowercasing), then a non-empty
available pool, then non-zero total capacity.  On success it returns the
assignment dict together with the available-interviewer list. -/
def assign_slots (interviewers : List Interviewer) (total_expected_slots : Int)
    (shift : String) : Except String (List (String × Int) × List Interviewer) :=
  if total_expected_slots ≤ 0 then
    Except.error ("Expected slots must be a positive integer, got " ++
      toString total_expected_slots)
  else if strToLower shift = "day" ∨ strToLower shift = "night" then
    if availableFor (strToLower shift) interviewers = [] then
      Except.error ("No interviewers available for the " ++ strToLower shift ++ " shift.")
    else if totalAvailableFor (strToLower shift) interviewers = 0 then
      Except.error ("No available slots for the " ++ strToLower shift ++
        " shift. All interviewers have 0 capacity.")
    else
      Except.ok ((allocateCore (strToLower shift) interviewers total_expected_slots).1,
        availableFor (strToLower shift) interviewers)
  else
    Except.error ("Shift must be either day or night, got " ++ strToLower shift)

/-- `calculate_default_slots` (lines 201-229).  Day shift lasts 14 hours
(840 minutes), night shift 10 hours (600 minutes); the number of slots is the
floor of the quotient by the slot duration.  For positive operands the
source's `int(float_division)` agrees with integer division. -/
def calculate_default_slots (shift : String) (slot_duration : Int) : Except String Int :=
  if slot_duration ≤ 0 then
    Except.error ("Slot duration must be a positive integer, got " ++ toString slot_duration)
  else
    let shiftL := strToLower shift
    if shiftL = "day" then Except.ok (14 * 60 / slot_duration)
    else if shiftL = "night" then Except.ok (10 * 60 / slot_duration)
    else Except.error ("Shift must be either day or night, got " ++ shiftL)

/-! ### Concrete inputs used by the theorems below -/

/-- Day-shift interviewer `A` with capacity 1. -/
def ivA1 : Interviewer := ⟨"A", "Alice", none, true, false, 1, 0⟩

/-- Day-shift interviewer `B` with capacity 1. -/
def ivB1 : Interviewer := ⟨"B", "Bob", none, true, false, 1, 0⟩

/-- Day-shift interviewer `A` with capacity 10. -/
def ivA10 : Interviewer := ⟨"A", "Alice", none, true, false, 10, 0⟩

/-- Day-shift interviewer `B` with capacity 5. -/
def ivB5 : Interviewer := ⟨"B", "Bob", none, true, false, 5, 0⟩

/-- Day-shift interviewer `C` with capacity 5. -/
def ivC5 : Interviewer := ⟨"C", "Carol", none, true, false, 5, 0⟩

/-- Day-shift interviewer `A` with capacity 2 (tie-break scenario). -/
def ivA2c : Interviewer := ⟨"A", "Alice", none, true, false, 2, 0⟩

/-- Day-shift interviewer `B` with capacity 1 (tie-break scenario). -/
def ivB1c : Interviewer := ⟨"B", "Bob", none, true, false, 1, 0⟩

/-- Day-shift interviewer `C` with capacity 1 (tie-break scenario). -/
def ivC1c : Interviewer := ⟨"C", "Carol", none, true, false, 1, 0⟩

section ConcreteEvaluation

attribute [local semireducible] Rat.mul Rat.inv Rat.add Rat.sub

/-- C1: the claim is the documented intent (docstring lines 7-8 and the
comment at line 180 promise that nobody exceeds their per-shift limit), but
the code violates it.  With capacities `A = 1, B = 1` for the day shift and
`total_expected_slots = 5`, the floor of the ideal share `(1/2)*5 = 2.5` is
already `2 > 1`, so `assign_slots` returns `A ↦ 2, B ↦ 2`, exceeding both
capacities. -/
theorem assign_slots_capacity_exceeded_on_shortfall :
    assign_slots [ivA1, ivB1] 5 "day" =
      Except.ok ([("A", 2), ("B", 2)], [ivA1, ivB1]) ∧
    slotCap "day" ivA1 = 1 ∧ slotCap "day" ivB1 = 1 := by
  refine ⟨by decide, rfl, rfl⟩

/-- C2: the claim (the spec's shortfall property) fails on the code.  For
capacities `A = 1, B = 1` and target 5 the spec promises result
`A ↦ 1, B ↦ 1` with sum 2 (the total capacity); the code instead returns
`A ↦ 2, B ↦ 2` with sum 4, and the undistributed leftover reported by the
warning is 1, not 3. -/
theorem assign_slots_shortfall_not_capacity_saturated :
    assign_slots [ivA1, ivB1] 5 "day" =
      Except.ok ([("A", 2), ("B", 2)], [ivA1, ivB1]) ∧
    (dictVals [(("A" : String), (2 : Int)), ("B", 2)]).sum = 4 ∧
    totalAvailableFor "day" [ivA1, ivB1] = 2 ∧
    (allocateCore "day" [ivA1, ivB1] 5).2 = 1 := by
  refine ⟨by decide, rfl, rfl, by decide⟩

/-- C6: concrete largest-remainder scenario.  Capacities `A = 10, B = 5,
C = 5`, target 15: floors are `7, 3, 3`, the two leftover slots go to `B`
and `C` (remainders `0.75 > 0.5`), and the result is exactly
`A ↦ 7, B ↦ 4, C ↦ 4`. -/
theorem assign_slots_concrete_proportional :
    assign_slots [ivA10, ivB5, ivC5] 15 "day" =
      Except.ok ([("A", 7), ("B", 4), ("C", 4)], [ivA10, ivB5, ivC5]) := by decide

end ConcreteEvaluation

/-- C8: `assign_slots` is a pure function of its three arguments, so two
calls with identical interviewer lists, targets and shifts return identical
assignment mappings and available-interviewer lists. -/
theorem assign_slots_deterministic (ivs₁ ivs₂ : List Interviewer) (T₁ T₂ : Int)
    (s₁ s₂ : String) (h1 : ivs₁ = ivs₂) (h2 : T₁ = T₂) (h3 : s₁ = s₂) :
    assign_slots ivs₁ T₁ s₁ = assign_slots ivs₂ T₂ s₂ := by
  rw [h1, h2, h3]

/-- Witness for C8 at a concrete input. -/
theorem assign_slots_deterministic_witness :
    assign_slots [ivA1, ivB1] 1 "day" = assign_slots [ivA1, ivB1] 1 "day" :=
  assign_slots_deterministic [ivA1, ivB1] [ivA1, ivB1] 1 1 "day" "day" rfl rfl rfl

/-- C9: `calculate_default_slots` returns the floor of the shift duration
(day 840 minutes, night 600 minutes) divided by the slot duration, and
raises `ValueError` exactly when the slot duration is non-positive. -/
theorem calculate_default_slots_spec (shift : String) (d : Int)
    (hs : shift = "day" ∨ shift = "night") :
    (0 < d → calculate_default_slots shift d =
      Except.ok ((if shift = "day" then 840 else 600) / d)) ∧
    (d ≤ 0 → calculate_default_slots shift d =
      Except.error ("Slot duration must be a positive integer, got " ++ toString d)) := by
  constructor
  · intro hd
    have hnd : ¬ d ≤ 0 := not_le.mpr hd
    rcases hs with h | h <;> subst h
    · have h1 : strToLower "day" = "day" := by decide
      simp [calculate_default_slots, hnd, h1]
    · have h1 : strToLower "night" = "night" := by decide
      simp [calculate_default_slots, hnd, h1]
  · intro hd
    simp [calculate_default_slots, hd]

/-- Witness for C9: day/40 gives 21, night/40 gives 15, day/30 gives 28. -/
theorem calculate_default_slots_spec_witness :
    calculate_default_slots "day" 40 = Except.ok 21 ∧
    calculate_default_slots "night" 40 = Except.ok 15 ∧
    calculate_default_slots "day" 30 = Except.ok 28 := by
  refine ⟨?_, ?_, ?_⟩
  · exact ((calculate_default_slots_spec "day" 40 (Or.inl rfl)).1 (by norm_num)).trans
      (by rw [if_pos rfl]; norm_num)
  · exact ((calculate_default_slots_spec "night" 40 (Or.inr rfl)).1 (by norm_num)).trans
      (by rw [if_neg (by decide)]; norm_num)
  · exact ((calculate_default_slots_spec "day" 30 (Or.inl rfl)).1 (by norm_num)).trans
      (by rw [if_pos rfl]; norm_num)

/-! ### Association-list lemmas (Python dict semantics under unique keys) -/

/-- Folding `dictInsert` over fresh, pairwise-distinct keys appends the
corresponding pairs in iteration order. -/
theorem foldl_dictInsert_eq_append (f : Interviewer → α) :
    ∀ (l : List Interviewer) (m : List (String × α)),
      (∀ iv ∈ l, iv.Interviewer_ID ∉ dictKeys m) →
      (l.map (fun iv => iv.Interviewer_ID)).Nodup →
      l.foldl (fun acc iv => dictInsert acc iv.Interviewer_ID (f iv)) m =
        m ++ l.map (fun iv => (iv.Interviewer_ID, f iv)) := by
  intro l
  induction l with
  | nil => intro m _ _; simp
  | cons iv l ih =>
    intro m h hn
    simp only [List.foldl_cons]
    have hmem : iv.Interviewer_ID ∉ dictKeys m := h iv (List.mem_cons_self _ _)
    rw [dictInsert, if_neg hmem]
    rw [ih (m ++ [(iv.Interviewer_ID, f iv)]) ?fresh ?tail]
    · simp
    case fresh =>
      intro x hx
      have h1 : x.Interviewer_ID ∉ dictKeys m := h x (List.mem_cons_of_mem _ hx)
      have h2 : x.Interviewer_ID ≠ iv.Interviewer_ID := by
        intro he
        have hmm : x.Interviewer_ID ∈ l.map (fun iv => iv.Interviewer_ID) :=
          List.mem_map.mpr ⟨x, hx, rfl⟩
        have hmm' : iv.Interviewer_ID ∈ l.map (fun iv => iv.Interviewer_ID) := he ▸ hmm
        exact (List.nodup_cons.mp hn).1 hmm' 
      simp only [dictKeys, List.map_append, List.mem_append, List.map_cons,
        List.map_nil, List.mem_singleton]
      rintro (hc | hc)
      · exact h1 hc
      · exact h2 hc
    case tail => exact (List.nodup_cons.mp hn).2

/-- Under unique identities the first loop of `assign_slots` just maps each
available interviewer to its pair. -/
theorem buildDict_eq_map (f : Interviewer → α) (l : List Interviewer)
    (hn : (l.map (fun iv => iv.Interviewer_ID)).Nodup) :
    buildDict l f = l.map (fun iv => (iv.Interviewer_ID, f iv)) := by
  have h := foldl_dictInsert_eq_append f l [] (by simp [dictKeys]) hn
  simpa [buildDict] using h

/-- Keys of the mapped dict are the identities, in order. -/
theorem dictKeys_map_pairs (f : Interviewer → α) (l : List Interviewer) :
    dictKeys (l.map (fun iv => (iv.Interviewer_ID, f iv))) =
      l.map (fun iv => iv.Interviewer_ID) := by
  simp only [dictKeys, List.map_map]
  rfl

/-- Values of the mapped dict are the mapped values, in order. -/
theorem dictVals_map_pairs (f : Interviewer → α) (l : List Interviewer) :
    dictVals (l.map (fun iv => (iv.Interviewer_ID, f iv))) = l.map f := by
  simp only [dictVals, List.map_map]
  rfl

/-- Looking up a member's identity in the mapped dict returns its value
(unique identities). -/
theorem dictGet_map_pairs (f : Interviewer → α) (d : α) :
    ∀ (l : List Interviewer), (l.map (fun iv => iv.Interviewer_ID)).Nodup →
      ∀ iv ∈ l,
        dictGet (l.map (fun x => (x.Interviewer_ID, f x))) iv.Interviewer_ID d = f iv := by
  intro l
  induction l with
  | nil => intro _ iv h; cases h
  | cons x l ih =>
    intro hn iv hiv
    simp only [List.map_cons, dictGet]
    by_cases hx : x.Interviewer_ID = iv.Interviewer_ID
    · rw [if_pos hx]
      rcases List.mem_cons.mp hiv with h | h
      · rw [h]
      · have hmm : iv.Interviewer_ID ∈ l.map (fun iv => iv.Interviewer_ID) :=
          List.mem_map.mpr ⟨iv, h, rfl⟩
        have hmm' : x.Interviewer_ID ∈ l.map (fun iv => iv.Interviewer_ID) := hx ▸ hmm
        exact absurd hmm' (List.nodup_cons.mp hn).1
    · rw [if_neg hx]
      rcases List.mem_cons.mp hiv with h | h
      · exact absurd (show x.Interviewer_ID = iv.Interviewer_ID by rw [h]) hx
      · exact ih (List.nodup_cons.mp hn).2 iv h

/-- `dictIncr` leaves the key sequence unchanged. -/
theorem dictKeys_dictIncr (m : List (String × Int)) (k : String) :
    dictKeys (dictIncr m k) = dictKeys m := by
  simp only [dictKeys, dictIncr, List.map_map]
  apply List.map_congr_left
  intro p _
  by_cases h : p.1 = k <;> simp [h]

/-- `dictIncr` does not touch other keys. -/
theorem dictGet_dictIncr_ne (m : List (String × Int)) (k k' : String) (d : Int)
    (h : k' ≠ k) : dictGet (dictIncr m k) k' d = dictGet m k' d := by
  induction m with
  | nil => rfl
  | cons p m ih =>
    simp only [dictIncr, List.map_cons] at *
    by_cases hp : p.1 = k
    · rw [if_pos hp]
      simp only [dictGet]
      have hpk : ¬ p.1 = k' := fun hc => h (hc.symm.trans hp)
      rw [if_neg hpk, if_neg hpk]
      exact ih
    · rw [if_neg hp]
      simp only [dictGet]
      by_cases hp' : p.1 = k'
      · rw [if_pos hp', if_pos hp']
      · rw [if_neg hp', if_neg hp']
        exact ih

/-- `dictIncr` adds one to a present key (first occurrence). -/
theorem dictGet_dictIncr_self (m : List (String × Int)) (k : String) (d : Int)
    (hk : k ∈ dictKeys m) : dictGet (dictIncr m k) k d = dictGet m k d + 1 := by
  induction m with
  | nil => cases hk
  | cons p m ih =>
    simp only [dictIncr, List.map_cons, dictGet]
    by_cases hp : p.1 = k
    · rw [if_pos hp]
      simp only [dictGet, if_pos hp]
    · rw [if_neg hp]
      simp only [dictGet, if_neg hp]
      exact ih (by
        rcases List.mem_cons.mp hk with h | h
        · exact absurd h.symm hp
        · exact h)

/-- `dictIncr` on an absent key is the identity. -/
theorem dictIncr_of_not_mem (m : List (String × Int)) (k : String)
    (h : k ∉ dictKeys m) : dictIncr m k = m := by
  induction m with
  | nil => rfl
  | cons p m ih =>
    simp only [dictKeys, List.map_cons, List.mem_cons, not_or] at h
    simp only [dictIncr, List.map_cons]
    rw [if_neg (fun hc => h.1 hc.symm)]
    have := ih (by simpa [dictKeys] using h.2)
    simpa [dictIncr] using this

/-- `dictIncr` on a present key (unique keys) adds one to the value sum. -/
theorem dictVals_sum_dictIncr (m : List (String × Int)) (k : String)
    (hk : k ∈ dictKeys m) (hn : (dictKeys m).Nodup) :
    (dictVals (dictIncr m k)).sum = (dictVals m).sum + 1 := by
  induction m with
  | nil => cases hk
  | cons p m ih =>
    simp only [dictKeys, List.map_cons, List.nodup_cons] at hn
    by_cases hp : p.1 = k
    · have habs : k ∉ dictKeys m := hp ▸ hn.1
      simp only [dictIncr, List.map_cons, if_pos hp]
      rw [show m.map (fun q => if q.1 = k then (q.1, q.2 + 1) else q) = m from
        dictIncr_of_not_mem m k habs]
      simp only [dictVals, List.map_cons, List.sum_cons]
      ring
    · simp only [dictIncr, List.map_cons, if_neg hp]
      have hk' : k ∈ dictKeys m := by
        rcases List.mem_cons.mp hk with h | h
        · exact absurd h.symm hp
        · exact h
      simp only [dictVals, List.map_cons, List.sum_cons]
      have := ih hk' hn.2
      simp only [dictVals, dictIncr] at this
      rw [this]
      ring

/-- `dictIncr` preserves non-negativity of all values. -/
theorem dictIncr_nonneg (m : List (String × Int)) (k : String)
    (h : ∀ p ∈ m, 0 ≤ p.2) : ∀ p ∈ dictIncr m k, 0 ≤ p.2 := by
  intro p hp
  rcases List.mem_map.mp hp with ⟨q, hq, he⟩
  have hq2 := h q hq
  by_cases h1 : q.1 = k
  · rw [if_pos h1] at he
    rw [← he]
    omega
  · rw [if_neg h1] at he
    rw [← he]
    exact hq2

/-- Looking up a member's identity with `find?` returns that member
(unique identities): models the `next(...)` expression at line 184. -/
theorem findCapacity_eq (shiftL : String) :
    ∀ (avail : List Interviewer),
      (avail.map (fun iv => iv.Interviewer_ID)).Nodup →
      ∀ iv ∈ avail, findCapacity avail shiftL iv.Interviewer_ID = slotCap shiftL iv := by
  intro avail
  induction avail with
  | nil => intro _ iv h; cases h
  | cons x l ih =>
    intro hn iv hiv
    simp only [findCapacity]
    by_cases hx : x.Interviewer_ID = iv.Interviewer_ID
    · rw [List.find?_cons_of_pos _ (by simpa using hx)]
      rcases List.mem_cons.mp hiv with h | h
      · rw [h]
        rfl
      · have hmm : iv.Interviewer_ID ∈ l.map (fun iv => iv.Interviewer_ID) :=
          List.mem_map.mpr ⟨iv, h, rfl⟩
        have hmm' : x.Interviewer_ID ∈ l.map (fun iv => iv.Interviewer_ID) := hx ▸ hmm
        exact absurd hmm' (List.nodup_cons.mp hn).1
    · rw [List.find?_cons_of_neg _ (by simpa using hx)]
      rcases List.mem_cons.mp hiv with h | h
      · exact absurd (show x.Interviewer_ID = iv.Interviewer_ID by rw [h]) hx
      · exact ih (List.nodup_cons.mp hn).2 iv h

/-! ### Arithmetic facts about the ideal-share computation -/

/-- The ideal share is non-negative for a non-negative target. -/
theorem idealSlots_nonneg (c tot : Nat) (T : Int) (hT : 0 ≤ T) :
    0 ≤ idealSlots c tot T := by
  unfold idealSlots
  have h1 : (0 : ℚ) ≤ (c : ℚ) / (tot : ℚ) := div_nonneg (by positivity) (by positivity)
  have h2 : (0 : ℚ) ≤ (T : ℚ) := by exact_mod_cast hT
  exact mul_nonneg h1 h2

/-- The floor assignment is non-negative for a non-negative target. -/
theorem floorAssigned_nonneg (c tot : Nat) (T : Int) (hT : 0 ≤ T) :
    0 ≤ floorAssigned c tot T :=
  Int.floor_nonneg.mpr (idealSlots_nonneg c tot T hT)

/-- The fractional remainder lies in `[0, 1)`. -/
theorem fracRemainder_nonneg (c tot : Nat) (T : Int) :
    0 ≤ fracRemainder c tot T := by
  unfold fracRemainder floorAssigned
  have := Int.floor_le (idealSlots c tot T)
  linarith

/-- The fractional remainder lies in `[0, 1)`. -/
theorem fracRemainder_lt_one (c tot : Nat) (T : Int) :
    fracRemainder c tot T < 1 := by
  unfold fracRemainder floorAssigned
  have := Int.lt_floor_add_one (idealSlots c tot T)
  linarith

/-- When the target does not exceed the total capacity, each ideal share is
at most the entity's own capacity. -/
theorem idealSlots_le_capacity (c tot : Nat) (T : Int) (htot : tot ≠ 0)
    (hle : T ≤ (tot : Int)) : idealSlots c tot T ≤ (c : ℚ) := by
  unfold idealSlots
  have htotQ : (0 : ℚ) < (tot : ℚ) := by
    have : 0 < tot := Nat.pos_of_ne_zero htot
    exact_mod_cast this
  have hTQ : (T : ℚ) ≤ (tot : ℚ) := by exact_mod_cast hle
  have hcdiv : (0 : ℚ) ≤ (c : ℚ) / (tot : ℚ) := div_nonneg (by positivity) (le_of_lt htotQ)
  calc (c : ℚ) / (tot : ℚ) * (T : ℚ) ≤ (c : ℚ) / (tot : ℚ) * (tot : ℚ) :=
        mul_le_mul_of_nonneg_left hTQ hcdiv
    _ = (c : ℚ) := div_mul_cancel₀ _ (ne_of_gt htotQ)

/-- A positive fractional remainder forces the floor strictly below the
capacity (when the target does not exceed total capacity). -/
theorem floor_lt_capacity_of_frac_pos (c tot : Nat) (T : Int) (htot : tot ≠ 0)
    (hle : T ≤ (tot : Int)) (hfrac : 0 < fracRemainder c tot T) :
    floorAssigned c tot T < (c : Int) := by
  have h1 : (floorAssigned c tot T : ℚ) < idealSlots c tot T := by
    unfold fracRemainder at hfrac
    linarith
  have h2 := idealSlots_le_capacity c tot T htot hle
  have h3 : (floorAssigned c tot T : ℚ) < (c : ℚ) := lt_of_lt_of_le h1 h2
  exact_mod_cast h3

/-- Sum of differences over a list (in a commutative group). -/
theorem list_sum_map_sub (l : List Interviewer) (f g : Interviewer → ℚ) :
    (l.map (fun iv => f iv - g iv)).sum = (l.map f).sum - (l.map g).sum := by
  induction l with
  | nil => simp
  | cons x l ih =>
    simp only [List.map_cons, List.sum_cons, ih]
    ring

/-- The ideal shares over any capacity list of non-zero total sum to the
target exactly. -/
theorem sum_idealSlots (l : List Interviewer) (c : Interviewer → Nat) (T : Int)
    (htot : (l.map c).sum ≠ 0) :
    (l.map (fun iv => idealSlots (c iv) ((l.map c).sum) T)).sum = (T : ℚ) := by
  have hstep : ∀ iv, idealSlots (c iv) ((l.map c).sum) T =
      ((c iv : ℚ)) * ((T : ℚ) / (((l.map c).sum : Nat) : ℚ)) := by
    intro iv
    unfold idealSlots
    ring
  rw [List.map_congr_left (fun iv _ => hstep iv)]
  rw [List.sum_map_mul_right]
  have hcast : (l.map (fun iv => ((c iv : Nat) : ℚ))).sum = (((l.map c).sum : Nat) : ℚ) := by
    rw [Nat.cast_list_sum]
    rw [List.map_map]
    rfl
  have htotQ : (((l.map c).sum : Nat) : ℚ) ≠ 0 := by
    exact_mod_cast htot
  rw [hcast, mul_comm]
  exact div_mul_cancel₀ _ htotQ

/-- The floors of the ideal shares sum to at most the target. -/
theorem sum_floorAssigned_le (l : List Interviewer) (c : Interviewer → Nat) (T : Int)
    (htot : (l.map c).sum ≠ 0) :
    (l.map (fun iv => floorAssigned (c iv) ((l.map c).sum) T)).sum ≤ T := by
  have hQ : ((l.map (fun iv => floorAssigned (c iv) ((l.map c).sum) T)).sum : ℚ) ≤ (T : ℚ) := by
    rw [Int.cast_list_sum, List.map_map]
    have hle : ((l.map (Int.cast ∘ fun iv => floorAssigned (c iv) ((l.map c).sum) T)).sum : ℚ) ≤
        (l.map (fun iv => idealSlots (c iv) ((l.map c).sum) T)).sum := by
      apply List.sum_le_sum
      intro iv _
      exact Int.floor_le _
    exact le_of_le_of_eq hle (sum_idealSlots l c T htot)
  exact_mod_cast hQ

/-- Each rational in `[0, 1)`: the sum is at most the number of positives. -/
theorem sum_rat_le_countP (l : List ℚ) (h : ∀ x ∈ l, 0 ≤ x ∧ x < 1) :
    l.sum ≤ ((l.countP (fun x => decide (0 < x)) : Nat) : ℚ) := by
  induction l with
  | nil => simp
  | cons x l ih =>
    have hx := h x (List.mem_cons_self _ _)
    have hl : ∀ y ∈ l, 0 ≤ y ∧ y < 1 := fun y hy => h y (List.mem_cons_of_mem _ hy)
    simp only [List.sum_cons]
    by_cases hp : 0 < x
    · rw [List.countP_cons_of_pos _ _ (by simpa using hp)]
      push_cast
      have h1 : x ≤ 1 := le_of_lt hx.2
      have h2 := ih hl
      linarith
    · have hx0 : x = 0 := le_antisymm (not_lt.mp hp) hx.1
      rw [List.countP_cons_of_neg _ _ (by simpa using hp)]
      rw [hx0, zero_add]
      exact ih hl

/-- The leftover after flooring is at most the number of entities that are
still strictly below their capacity (for a feasible target). -/
theorem leftover_le_eligible (l : List Interviewer) (c : Interviewer → Nat) (T : Int)
    (htot : (l.map c).sum ≠ 0) (hle : T ≤ (((l.map c).sum : Nat) : Int)) :
    T - (l.map (fun iv => floorAssigned (c iv) ((l.map c).sum) T)).sum ≤
      ((l.countP (fun iv =>
        decide (floorAssigned (c iv) ((l.map c).sum) T < ((c iv : Nat) : Int))) : Nat) : Int) := by
  set tot := (l.map c).sum with htotdef
  have hfrac_sum : ((T - (l.map (fun iv => floorAssigned (c iv) tot T)).sum : Int) : ℚ) =
      (l.map (fun iv => fracRemainder (c iv) tot T)).sum := by
    have h1 : (l.map (fun iv => fracRemainder (c iv) tot T)).sum =
        (l.map (fun iv => idealSlots (c iv) tot T)).sum -
          (l.map (fun iv => ((floorAssigned (c iv) tot T : Int) : ℚ))).sum := by
      rw [← list_sum_map_sub]
      rfl
    rw [h1, sum_idealSlots l c T htot]
    push_cast
    rw [List.map_map]
    rfl
  have hcount1 : (l.map (fun iv => fracRemainder (c iv) tot T)).sum ≤
      ((l.countP (fun iv => decide (0 < fracRemainder (c iv) tot T)) : Nat) : ℚ) := by
    have h2 := sum_rat_le_countP (l.map (fun iv => fracRemainder (c iv) tot T)) ?bounds
    case bounds =>
      intro x hx
      rcases List.mem_map.mp hx with ⟨iv, _, he⟩
      rw [← he]
      exact ⟨fracRemainder_nonneg _ _ _, fracRemainder_lt_one _ _ _⟩
    rw [List.countP_map] at h2
    exact h2
  have hcount2 : l.countP (fun iv => decide (0 < fracRemainder (c iv) tot T)) ≤
      l.countP (fun iv => decide (floorAssigned (c iv) tot T < ((c iv : Nat) : Int))) := by
    apply List.countP_mono_left
    intro iv _ h
    have hfp : 0 < fracRemainder (c iv) tot T := by simpa using h
    simpa using floor_lt_capacity_of_frac_pos (c iv) tot T htot hle hfp
  have hQ : ((T - (l.map (fun iv => floorAssigned (c iv) tot T)).sum : Int) : ℚ) ≤
      ((l.countP (fun iv =>
        decide (floorAssigned (c iv) tot T < ((c iv : Nat) : Int))) : Nat) : ℚ) := by
    rw [hfrac_sum]
    exact le_trans hcount1 (by exact_mod_cast hcount2)
  exact_mod_cast hQ

/-! ### Properties of the leftover-distribution loop -/

/-- With no slots left the loop is the identity. -/
theorem distributeRemaining_of_nonpos (avail : List Interviewer) (shiftL : String) :
    ∀ (L : List (String × ℚ)) (m : List (String × Int)) (r : Int), r ≤ 0 →
      distributeRemaining avail shiftL L m r = (m, r) := by
  intro L m r h
  cases L with
  | nil => rfl
  | cons p rest => simp [distributeRemaining, h]

/-- The loop never changes the key sequence of the assignment dict. -/
theorem distributeRemaining_keys (avail : List Interviewer) (shiftL : String) :
    ∀ (L : List (String × ℚ)) (m : List (String × Int)) (r : Int),
      dictKeys (distributeRemaining avail shiftL L m r).1 = dictKeys m := by
  intro L
  induction L with
  | nil => intro m r; rfl
  | cons p rest ih =>
    intro m r
    by_cases h0 : r ≤ 0
    · simp [distributeRemaining, h0]
    · by_cases helig : dictGet m p.1 0 < (findCapacity avail shiftL p.1 : Int)
      · simp only [distributeRemaining, if_neg h0, if_pos helig]
        rw [ih]
        exact dictKeys_dictIncr m p.1
      · simp only [distributeRemaining, if_neg h0, if_neg helig]
        exact ih m r

/-- Conservation: distributed slots move one-for-one from `remaining_slots`
into the value sum (walked keys must be present; keys unique). -/
theorem distributeRemaining_sum (avail : List Interviewer) (shiftL : String) :
    ∀ (L : List (String × ℚ)) (m : List (String × Int)) (r : Int),
      (dictKeys m).Nodup → (∀ p ∈ L, p.1 ∈ dictKeys m) →
      (dictVals (distributeRemaining avail shiftL L m r).1).sum +
        (distributeRemaining avail shiftL L m r).2 = (dictVals m).sum + r := by
  intro L
  induction L with
  | nil => intro m r _ _; rfl
  | cons p rest ih =>
    intro m r hn hk
    by_cases h0 : r ≤ 0
    · simp [distributeRemaining, h0]
    · by_cases helig : dictGet m p.1 0 < (findCapacity avail shiftL p.1 : Int)
      · simp only [distributeRemaining, if_neg h0, if_pos helig]
        have hkeys : dictKeys (dictIncr m p.1) = dictKeys m := dictKeys_dictIncr m p.1
        have hrec := ih (dictIncr m p.1) (r - 1) (hkeys ▸ hn)
          (fun q hq => hkeys ▸ hk q (List.mem_cons_of_mem _ hq))
        rw [hrec, dictVals_sum_dictIncr m p.1 (hk p (List.mem_cons_self _ _)) hn]
        ring
      · simp only [distributeRemaining, if_neg h0, if_neg helig]
        exact ih m r hn (fun q hq => hk q (List.mem_cons_of_mem _ hq))

/-- The loop never drives `remaining_slots` negative. -/
theorem distributeRemaining_rem_nonneg (avail : List Interviewer) (shiftL : String) :
    ∀ (L : List (String × ℚ)) (m : List (String × Int)) (r : Int), 0 ≤ r →
      0 ≤ (distributeRemaining avail shiftL L m r).2 := by
  intro L
  induction L with
  | nil => intro m r h; exact h
  | cons p rest ih =>
    intro m r h
    by_cases h0 : r ≤ 0
    · simpa [distributeRemaining, h0] using h
    · by_cases helig : dictGet m p.1 0 < (findCapacity avail shiftL p.1 : Int)
      · simp only [distributeRemaining, if_neg h0, if_pos helig]
        exact ih _ _ (by omega)
      · simp only [distributeRemaining, if_neg h0, if_neg helig]
        exact ih m r h

/-- If at most as many slots remain as there are walked entities still below
capacity, the loop distributes everything: the final leftover is zero. -/
theorem distributeRemaining_exhausts (avail : List Interviewer) (shiftL : String) :
    ∀ (L : List (String × ℚ)) (m : List (String × Int)) (r : Int),
      (L.map Prod.fst).Nodup → 0 ≤ r →
      r ≤ ((L.countP (fun p =>
          decide (dictGet m p.1 0 < (findCapacity avail shiftL p.1 : Int))) : Nat) : Int) →
      (distributeRemaining avail shiftL L m r).2 = 0 := by
  intro L
  induction L with
  | nil =>
    intro m r _ h0 hc
    simp only [List.countP_nil] at hc
    have : r = 0 := by omega
    rw [this]
    rfl
  | cons p rest ih =>
    intro m r hn h0 hc
    by_cases hr0 : r ≤ 0
    · have : r = 0 := by omega
      rw [this]
      rw [distributeRemaining_of_nonpos avail shiftL _ m 0 (le_refl 0)]
    · by_cases helig : dictGet m p.1 0 < (findCapacity avail shiftL p.1 : Int)
      · simp only [distributeRemaining, if_neg hr0, if_pos helig]
        apply ih (dictIncr m p.1) (r - 1) (List.nodup_cons.mp (by simpa using hn)).2 (by omega)
        have hsame : rest.countP (fun q =>
            decide (dictGet (dictIncr m p.1) q.1 0 < (findCapacity avail shiftL q.1 : Int))) =
            rest.countP (fun q =>
            decide (dictGet m q.1 0 < (findCapacity avail shiftL q.1 : Int))) := by
          apply List.countP_congr
          intro q hq
          have hne : q.1 ≠ p.1 := by
            intro he
            have h1 : p.1 ∈ rest.map Prod.fst := by
              exact he ▸ List.mem_map.mpr ⟨q, hq, rfl⟩
            exact (List.nodup_cons.mp (by simpa using hn)).1 h1
          rw [dictGet_dictIncr_ne m p.1 q.1 0 hne]
        rw [hsame]
        rw [List.countP_cons_of_pos _ _ (by simpa using helig)] at hc
        omega
      · simp only [distributeRemaining, if_neg hr0, if_neg helig]
        apply ih m r (List.nodup_cons.mp (by simpa using hn)).2 h0
        rw [List.countP_cons_of_neg _ _ (by simpa using helig)] at hc
        exact hc

/-- The loop preserves non-negativity of all assigned values. -/
theorem distributeRemaining_nonneg_vals (avail : List Interviewer) (shiftL : String) :
    ∀ (L : List (String × ℚ)) (m : List (String × Int)) (r : Int),
      (∀ p ∈ m, 0 ≤ p.2) →
      ∀ q ∈ (distributeRemaining avail shiftL L m r).1, 0 ≤ q.2 := by
  intro L
  induction L with
  | nil => intro m r h; exact h
  | cons p rest ih =>
    intro m r h
    by_cases h0 : r ≤ 0
    · simpa [distributeRemaining, h0] using h
    · by_cases helig : dictGet m p.1 0 < (findCapacity avail shiftL p.1 : Int)
      · simp only [distributeRemaining, if_neg h0, if_pos helig]
        exact ih _ _ (dictIncr_nonneg m p.1 h)
      · simp only [distributeRemaining, if_neg h0, if_neg helig]
        exact ih m r h

/-! ### The allocation core under unique identities -/

/-- Filtering preserves uniqueness of identities. -/
theorem avail_ids_nodup (shiftL : String) (ivs : List Interviewer)
    (hn : (ivs.map (fun iv => iv.Interviewer_ID)).Nodup) :
    ((availableFor shiftL ivs).map (fun iv => iv.Interviewer_ID)).Nodup :=
  List.Nodup.sublist ((List.filter_sublist ivs).map (fun iv => iv.Interviewer_ID)) hn

/-- The first loop of `assign_slots` as a plain map (unique identities). -/
theorem initialAssignments_eq (shiftL : String) (ivs : List Interviewer) (T : Int)
    (hn : ((availableFor shiftL ivs).map (fun iv => iv.Interviewer_ID)).Nodup) :
    initialAssignments shiftL ivs T = (availableFor shiftL ivs).map
      (fun iv => (iv.Interviewer_ID,
        floorAssigned (slotCap shiftL iv) (totalAvailableFor shiftL ivs) T)) :=
  buildDict_eq_map _ _ hn

/-- The remainder dict as a plain map (unique identities). -/
theorem initialRemainders_eq (shiftL : String) (ivs : List Interviewer) (T : Int)
    (hn : ((availableFor shiftL ivs).map (fun iv => iv.Interviewer_ID)).Nodup) :
    initialRemainders shiftL ivs T = (availableFor shiftL ivs).map
      (fun iv => (iv.Interviewer_ID,
        fracRemainder (slotCap shiftL iv) (totalAvailableFor shiftL ivs) T)) :=
  buildDict_eq_map _ _ hn

/-- Eligibility along the sorted remainder list counts exactly the available
interviewers whose floor assignment is below their capacity. -/
theorem countP_eligible_eq (shiftL : String) (ivs : List Interviewer) (T : Int)
    (hn : ((availableFor shiftL ivs).map (fun iv => iv.Interviewer_ID)).Nodup) :
    (sortedRemainders shiftL ivs T).countP (fun p =>
        decide (dictGet (initialAssignments shiftL ivs T) p.1 0 <
          (findCapacity (availableFor shiftL ivs) shiftL p.1 : Int))) =
    (availableFor shiftL ivs).countP (fun iv =>
        decide (floorAssigned (slotCap shiftL iv) (totalAvailableFor shiftL ivs) T <
          ((slotCap shiftL iv : Nat) : Int))) := by
  unfold sortedRemainders
  rw [List.Perm.countP_eq _ (List.perm_insertionSort remOrder _)]
  rw [initialRemainders_eq shiftL ivs T hn]
  rw [List.countP_map]
  apply List.countP_congr
  intro iv hiv
  have h1 : dictGet (initialAssignments shiftL ivs T) iv.Interviewer_ID 0 =
      floorAssigned (slotCap shiftL iv) (totalAvailableFor shiftL ivs) T := by
    rw [initialAssignments_eq shiftL ivs T hn]
    exact dictGet_map_pairs _ 0 _ hn iv hiv
  have h2 : findCapacity (availableFor shiftL ivs) shiftL iv.Interviewer_ID =
      slotCap shiftL iv := findCapacity_eq shiftL _ hn iv hiv
  simp only [Function.comp_apply, h1, h2]

/-- Key sequence of the final assignment dict: exactly the available
interviewers' identities, in order. -/
theorem allocateCore_keys (shiftL : String) (ivs : List Interviewer) (T : Int)
    (hn : ((availableFor shiftL ivs).map (fun iv => iv.Interviewer_ID)).Nodup) :
    dictKeys (allocateCore shiftL ivs T).1 =
      (availableFor shiftL ivs).map (fun iv => iv.Interviewer_ID) := by
  unfold allocateCore
  rw [distributeRemaining_keys]
  rw [initialAssignments_eq shiftL ivs T hn]
  exact dictKeys_map_pairs _ _

/-- All final assignment values are non-negative (for a non-negative target). -/
theorem allocateCore_vals_nonneg (shiftL : String) (ivs : List Interviewer) (T : Int)
    (hn : ((availableFor shiftL ivs).map (fun iv => iv.Interviewer_ID)).Nodup)
    (hT : 0 ≤ T) :
    ∀ p ∈ (allocateCore shiftL ivs T).1, 0 ≤ p.2 := by
  unfold allocateCore
  apply distributeRemaining_nonneg_vals
  intro p hp
  rw [initialAssignments_eq shiftL ivs T hn] at hp
  rcases List.mem_map.mp hp with ⟨iv, _, he⟩
  rw [← he]
  exact floorAssigned_nonneg _ _ _ hT

/-- Conservation: final value sum plus final leftover equals the target. -/
theorem allocateCore_sum_add_rem (shiftL : String) (ivs : List Interviewer) (T : Int)
    (hn : ((availableFor shiftL ivs).map (fun iv => iv.Interviewer_ID)).Nodup) :
    (dictVals (allocateCore shiftL ivs T).1).sum + (allocateCore shiftL ivs T).2 = T := by
  unfold allocateCore
  rw [distributeRemaining_sum (availableFor shiftL ivs) shiftL _ _ _ ?keysnodup ?keysmem]
  case keysnodup =>
    rw [initialAssignments_eq shiftL ivs T hn, dictKeys_map_pairs]
    exact hn
  case keysmem =>
    intro p hp
    have hp' : p ∈ initialRemainders shiftL ivs T :=
      (List.perm_insertionSort remOrder _).mem_iff.mp hp
    rw [initialRemainders_eq shiftL ivs T hn] at hp'
    rcases List.mem_map.mp hp' with ⟨iv, hiv, he⟩
    rw [initialAssignments_eq shiftL ivs T hn, dictKeys_map_pairs]
    rw [← he]
    exact List.mem_map.mpr ⟨iv, hiv, rfl⟩
  omega

/-- The final leftover is non-negative whenever the total capacity is
non-zero (so that the floors sum to at most the target). -/
theorem allocateCore_rem_nonneg (shiftL : String) (ivs : List Interviewer) (T : Int)
    (hn : ((availableFor shiftL ivs).map (fun iv => iv.Interviewer_ID)).Nodup)
    (htot : totalAvailableFor shiftL ivs ≠ 0) :
    0 ≤ (allocateCore shiftL ivs T).2 := by
  unfold allocateCore
  apply distributeRemaining_rem_nonneg
  rw [initialAssignments_eq shiftL ivs T hn, dictVals_map_pairs]
  have hfl := sum_floorAssigned_le (availableFor shiftL ivs) (slotCap shiftL) T htot
  simp only [totalAvailableFor]
  omega

/-- With a feasible target (at most the total capacity) every slot is
distributed: the final leftover is zero. -/
theorem allocateCore_rem_zero (shiftL : String) (ivs : List Interviewer) (T : Int)
    (hn : ((availableFor shiftL ivs).map (fun iv => iv.Interviewer_ID)).Nodup)
    (htot : totalAvailableFor shiftL ivs ≠ 0)
    (hle : T ≤ (totalAvailableFor shiftL ivs : Int)) :
    (allocateCore shiftL ivs T).2 = 0 := by
  unfold allocateCore
  apply distributeRemaining_exhausts (availableFor shiftL ivs) shiftL _ _ _ ?nodupL ?rnonneg
  case nodupL =>
    have hperm : List.Perm ((sortedRemainders shiftL ivs T).map Prod.fst)
        ((initialRemainders shiftL ivs T).map Prod.fst) :=
      (List.perm_insertionSort remOrder _).map Prod.fst
    rw [List.Perm.nodup_iff hperm, initialRemainders_eq shiftL ivs T hn, List.map_map]
    exact hn
  case rnonneg =>
    rw [initialAssignments_eq shiftL ivs T hn, dictVals_map_pairs]
    have hfl := sum_floorAssigned_le (availableFor shiftL ivs) (slotCap shiftL) T htot
    simp only [totalAvailableFor]
    omega
  rw [countP_eligible_eq shiftL ivs T hn]
  rw [initialAssignments_eq shiftL ivs T hn, dictVals_map_pairs]
  have h := leftover_le_eligible (availableFor shiftL ivs) (slotCap shiftL) T htot ?hle
  case hle =>
    simpa only [totalAvailableFor] using hle
  simpa only [totalAvailableFor] using h

/-! ### Destructuring a successful call -/

/-- A successful `assign_slots` call pins down every validation condition and
the returned components. -/
theorem assign_slots_ok_elim (ivs : List Interviewer) (T : Int) (shift : String)
    (asg : List (String × Int)) (avl : List Interviewer)
    (hok : assign_slots ivs T shift = Except.ok (asg, avl)) :
    ¬ T ≤ 0 ∧ (strToLower shift = "day" ∨ strToLower shift = "night") ∧
    availableFor (strToLower shift) ivs ≠ [] ∧
    totalAvailableFor (strToLower shift) ivs ≠ 0 ∧
    asg = (allocateCore (strToLower shift) ivs T).1 ∧
    avl = availableFor (strToLower shift) ivs := by
  by_cases h1 : T ≤ 0
  · simp [assign_slots, h1] at hok
  · by_cases h2 : strToLower shift = "day" ∨ strToLower shift = "night"
    · by_cases h3 : availableFor (strToLower shift) ivs = []
      · simp [assign_slots, h1, h2, h3] at hok
      · by_cases h4 : totalAvailableFor (strToLower shift) ivs = 0
        · simp [assign_slots, h1, h2, h3, h4] at hok
        · simp only [assign_slots, if_neg h1, if_pos h2, if_neg h3, if_neg h4,
            Except.ok.injEq, Prod.mk.injEq] at hok
          exact ⟨h1, h2, h3, h4, hok.1.symm, hok.2.symm⟩
    · simp [assign_slots, h1, h2] at hok

/-- With a canonical shift string, lowercasing is the identity. -/
theorem strToLower_canonical (shift : String) (hs : shift = "day" ∨ shift = "night") :
    strToLower shift = shift := by
  rcases hs with h | h <;> subst h <;> decide

/-! ### Claim theorems: target consumption, capping, errors, result shape -/

/-- C3: for unique identities, a non-empty available pool, positive total
capacity and a positive target at most the total capacity, the returned
assignment consumes every requested slot: the values sum to exactly
`total_expected_slots`. -/
theorem assign_slots_consumes_target (ivs : List Interviewer) (T : Int) (shift : String)
    (hs : shift = "day" ∨ shift = "night")
    (hn : (ivs.map (fun iv => iv.Interviewer_ID)).Nodup)
    (hne : availableFor shift ivs ≠ [])
    (htot : 0 < totalAvailableFor shift ivs)
    (hT : 0 < T) (hle : T ≤ (totalAvailableFor shift ivs : Int))
    (asg : List (String × Int)) (avl : List Interviewer)
    (hok : assign_slots ivs T shift = Except.ok (asg, avl)) :
    (dictVals asg).sum = T := by
  have hlow := strToLower_canonical shift hs
  obtain ⟨_, _, _, h4, hasg, _⟩ := assign_slots_ok_elim ivs T shift asg avl hok
  rw [hlow] at h4 hasg
  have hn' := avail_ids_nodup shift ivs hn
  rw [hasg]
  have hz := allocateCore_rem_zero shift ivs T hn' h4 hle
  have hsum := allocateCore_sum_add_rem shift ivs T hn'
  omega

/-- C4: every successful call (unique identities) assigns at most
`total_expected_slots` slots in total, whether or not the target exceeds the
available capacity. -/
theorem assign_slots_sum_le_target (ivs : List Interviewer) (T : Int) (shift : String)
    (hs : shift = "day" ∨ shift = "night")
    (hn : (ivs.map (fun iv => iv.Interviewer_ID)).Nodup)
    (asg : List (String × Int)) (avl : List Interviewer)
    (hok : assign_slots ivs T shift = Except.ok (asg, avl)) :
    (dictVals asg).sum ≤ T := by
  have hlow := strToLower_canonical shift hs
  obtain ⟨_, _, _, h4, hasg, _⟩ := assign_slots_ok_elim ivs T shift asg avl hok
  rw [hlow] at h4 hasg
  have hn' := avail_ids_nodup shift ivs hn
  rw [hasg]
  have hnn := allocateCore_rem_nonneg shift ivs T hn' h4
  have hsum := allocateCore_sum_add_rem shift ivs T hn'
  omega

/-- C5: for a canonical shift string, `assign_slots` fails exactly when the
target is non-positive, no interviewer is available for the shift, or every
available interviewer has zero capacity; in every other case (including a
target exceeding the total capacity) it returns a result. -/
theorem assign_slots_error_iff (ivs : List Interviewer) (T : Int) (shift : String)
    (hs : shift = "day" ∨ shift = "night") :
    ((assign_slots ivs T shift).isOk = false ↔
      T ≤ 0 ∨ availableFor shift ivs = [] ∨ totalAvailableFor shift ivs = 0) := by
  have hlow := strToLower_canonical shift hs
  by_cases h1 : T ≤ 0
  · simp [assign_slots, h1, Except.isOk, Except.toBool]
  · rw [assign_slots, if_neg h1, hlow, if_pos hs]
    by_cases h3 : availableFor shift ivs = []
    · simp [h3, h1, Except.isOk, Except.toBool]
    · rw [if_neg h3]
      by_cases h4 : totalAvailableFor shift ivs = 0
      · simp [h4, h1, h3, Except.isOk, Except.toBool]
      · simp [h4, h1, h3, Except.isOk, Except.toBool]

/-- C10: on every successful call with unique identities, the returned dict
has exactly the available interviewers' identities as keys (in order), the
returned list is the available pool, and every assigned value is
non-negative. -/
theorem assign_slots_result_shape (ivs : List Interviewer) (T : Int) (shift : String)
    (hs : shift = "day" ∨ shift = "night")
    (hn : (ivs.map (fun iv => iv.Interviewer_ID)).Nodup)
    (asg : List (String × Int)) (avl : List Interviewer)
    (hok : assign_slots ivs T shift = Except.ok (asg, avl)) :
    dictKeys asg = (availableFor shift ivs).map (fun iv => iv.Interviewer_ID) ∧
    avl = availableFor shift ivs ∧
    ∀ p ∈ asg, 0 ≤ p.2 := by
  have hlow := strToLower_canonical shift hs
  obtain ⟨h1, _, _, _, hasg, havl⟩ := assign_slots_ok_elim ivs T shift asg avl hok
  rw [hlow] at hasg havl
  have hn' := avail_ids_nodup shift ivs hn
  refine ⟨?_, havl, ?_⟩
  · rw [hasg]
    exact allocateCore_keys shift ivs T hn'
  · rw [hasg]
    exact allocateCore_vals_nonneg shift ivs T hn' (by omega)

section WitnessEvaluation

attribute [local semireducible] Rat.mul Rat.inv Rat.add Rat.sub

/-- Witness for C3 at capacities `A = 10, B = 5, C = 5`, target 15. -/
theorem assign_slots_consumes_target_witness :
    (dictVals [(("A" : String), (7 : Int)), ("B", 4), ("C", 4)]).sum = 15 :=
  assign_slots_consumes_target [ivA10, ivB5, ivC5] 15 "day" (Or.inl rfl) (by decide)
    (by decide) (by decide) (by decide) (by decide)
    [("A", 7), ("B", 4), ("C", 4)] [ivA10, ivB5, ivC5] (by decide)

/-- Witness for C4 at the shortfall input (capacities 1 and 1, target 5). -/
theorem assign_slots_sum_le_target_witness :
    (dictVals [(("A" : String), (2 : Int)), ("B", 2)]).sum ≤ 5 :=
  assign_slots_sum_le_target [ivA1, ivB1] 5 "day" (Or.inl rfl) (by decide)
    [("A", 2), ("B", 2)] [ivA1, ivB1] (by decide)

/-- Witness for C5: with no interviewers at all the call fails. -/
theorem assign_slots_error_iff_witness :
    (assign_slots ([] : List Interviewer) 5 "day").isOk = false :=
  (assign_slots_error_iff [] 5 "day" (Or.inl rfl)).mpr (Or.inr (Or.inl rfl))

/-- Witness for C10 at capacities `A = 10, B = 5, C = 5`, target 15. -/
theorem assign_slots_result_shape_witness :
    dictKeys [(("A" : String), (7 : Int)), ("B", 4), ("C", 4)] =
      (availableFor "day" [ivA10, ivB5, ivC5]).map (fun iv => iv.Interviewer_ID) ∧
    [ivA10, ivB5, ivC5] = availableFor "day" [ivA10, ivB5, ivC5] ∧
    ∀ p ∈ [(("A" : String), (7 : Int)), ("B", 4), ("C", 4)], 0 ≤ p.2 :=
  assign_slots_result_shape [ivA10, ivB5, ivC5] 15 "day" (Or.inl rfl) (by decide)
    [("A", 7), ("B", 4), ("C", 4)] [ivA10, ivB5, ivC5] (by decide)

end WitnessEvaluation

/-! ### The tie-break: strictly dominant entries sort to the front -/

/-- If `x` strictly precedes (in the `(-remainder, id)` key) every other
element, it is the head of the sorted list. -/
theorem insertionSort_head_of_strict (pl : List (String × ℚ)) (x : String × ℚ)
    (hx : x ∈ pl)
    (hmin : ∀ y ∈ pl, y ≠ x → y.2 < x.2 ∨ (y.2 = x.2 ∧ x.1.data < y.1.data)) :
    ∃ rest, List.insertionSort remOrder pl = x :: rest := by
  have hsorted := List.sorted_insertionSort remOrder pl
  have hperm := List.perm_insertionSort remOrder pl
  have hxs : x ∈ List.insertionSort remOrder pl := hperm.mem_iff.mpr hx
  cases hcase : List.insertionSort remOrder pl with
  | nil => rw [hcase] at hxs; cases hxs
  | cons h t =>
    rw [hcase] at hxs hsorted
    have hh : h ∈ pl := hperm.mem_iff.mp (by rw [hcase]; exact List.mem_cons_self h t)
    by_cases hhx : h = x
    · exact ⟨t, by rw [hhx]⟩
    · exfalso
      have hxt : x ∈ t := by
        rcases List.mem_cons.mp hxs with h' | h'
        · exact absurd h'.symm hhx
        · exact h'
      have hr : remOrder h x := List.rel_of_sorted_cons hsorted x hxt
      rcases hmin h hh hhx with hlt | ⟨heq, hgt⟩
      · rcases hr with h1 | ⟨h2, _⟩
        · exact absurd hlt (lt_asymm h1)
        · rw [h2] at hlt
          exact absurd hlt (lt_irrefl _)
      · rcases hr with h1 | ⟨_, h3⟩
        · rw [heq] at h1
          exact absurd h1 (lt_irrefl _)
        · exact absurd hgt (not_lt.mpr h3)

/-- C7: with exactly one leftover slot after flooring, two available
interviewers of equal capacity tied on the (strictly maximal) fractional
remainder and both below their capacity ceiling, the one with the
lexicographically smaller identity receives the extra slot and the other
keeps its floor. -/
theorem assign_slots_tie_break (ivs : List Interviewer) (T : Int) (shift : String)
    (i j : Interviewer)
    (hs : shift = "day" ∨ shift = "night")
    (hn : (ivs.map (fun iv => iv.Interviewer_ID)).Nodup)
    (hi : i ∈ availableFor shift ivs) (hj : j ∈ availableFor shift ivs)
    (hij : i.Interviewer_ID.data < j.Interviewer_ID.data)
    (hcap : slotCap shift i = slotCap shift j)
    (hfrac : fracRemainder (slotCap shift j) (totalAvailableFor shift ivs) T =
      fracRemainder (slotCap shift i) (totalAvailableFor shift ivs) T)
    (hmax : ∀ k ∈ availableFor shift ivs, k ≠ i → k ≠ j →
        fracRemainder (slotCap shift k) (totalAvailableFor shift ivs) T <
          fracRemainder (slotCap shift i) (totalAvailableFor shift ivs) T)
    (hleft : T - (dictVals (initialAssignments shift ivs T)).sum = 1)
    (hifl : floorAssigned (slotCap shift i) (totalAvailableFor shift ivs) T <
      ((slotCap shift i : Nat) : Int))
    (hjfl : floorAssigned (slotCap shift j) (totalAvailableFor shift ivs) T <
      ((slotCap shift j : Nat) : Int))
    (asg : List (String × Int)) (avl : List Interviewer)
    (hok : assign_slots ivs T shift = Except.ok (asg, avl)) :
    dictGet asg i.Interviewer_ID 0 =
      floorAssigned (slotCap shift i) (totalAvailableFor shift ivs) T + 1 ∧
    dictGet asg j.Interviewer_ID 0 =
      floorAssigned (slotCap shift j) (totalAvailableFor shift ivs) T := by
  have hlow := strToLower_canonical shift hs
  obtain ⟨_, _, _, _, hasg, _⟩ := assign_slots_ok_elim ivs T shift asg avl hok
  rw [hlow] at hasg
  have hn' := avail_ids_nodup shift ivs hn
  have hminit := initialAssignments_eq shift ivs T hn'
  have hrem := initialRemainders_eq shift ivs T hn'
  have hids : ∀ k ∈ availableFor shift ivs, ∀ k' ∈ availableFor shift ivs,
      k.Interviewer_ID = k'.Interviewer_ID → k = k' := fun k hk k' hk' he =>
    List.inj_on_of_nodup_map hn' hk hk' he
  have hx : (i.Interviewer_ID,
      fracRemainder (slotCap shift i) (totalAvailableFor shift ivs) T) ∈
      initialRemainders shift ivs T := by
    rw [hrem]
    exact List.mem_map.mpr ⟨i, hi, rfl⟩
  have hmin : ∀ y ∈ initialRemainders shift ivs T,
      y ≠ (i.Interviewer_ID,
        fracRemainder (slotCap shift i) (totalAvailableFor shift ivs) T) →
      y.2 < fracRemainder (slotCap shift i) (totalAvailableFor shift ivs) T ∨
        (y.2 = fracRemainder (slotCap shift i) (totalAvailableFor shift ivs) T ∧
          i.Interviewer_ID.data < y.1.data) := by
    intro y hy hyx
    rw [hrem] at hy
    rcases List.mem_map.mp hy with ⟨k, hk, he⟩
    by_cases hki : k = i
    · exact absurd (by rw [← he, hki]) hyx
    · by_cases hkj : k = j
      · right
        refine ⟨?_, ?_⟩
        · rw [← he, hkj]
          exact hfrac
        · rw [← he, hkj]
          exact hij
      · left
        rw [← he]
        exact hmax k hk hki hkj
  obtain ⟨rest, hsort⟩ :=
    insertionSort_head_of_strict (initialRemainders shift ivs T) _ hx hmin
  have hgeti : dictGet (initialAssignments shift ivs T) i.Interviewer_ID 0 =
      floorAssigned (slotCap shift i) (totalAvailableFor shift ivs) T := by
    rw [hminit]
    exact dictGet_map_pairs _ 0 _ hn' i hi
  have hgetj : dictGet (initialAssignments shift ivs T) j.Interviewer_ID 0 =
      floorAssigned (slotCap shift j) (totalAvailableFor shift ivs) T := by
    rw [hminit]
    exact dictGet_map_pairs _ 0 _ hn' j hj
  have hcapi : findCapacity (availableFor shift ivs) shift i.Interviewer_ID =
      slotCap shift i := findCapacity_eq shift _ hn' i hi
  have hcore : allocateCore shift ivs T =
      (dictIncr (initialAssignments shift ivs T) i.Interviewer_ID, 0) := by
    unfold allocateCore
    have hsr : sortedRemainders shift ivs T = (i.Interviewer_ID,
        fracRemainder (slotCap shift i) (totalAvailableFor shift ivs) T) :: rest := by
      unfold sortedRemainders
      exact hsort
    rw [hsr, hleft]
    simp only [distributeRemaining]
    rw [if_neg (by norm_num : ¬ (1 : Int) ≤ 0)]
    rw [if_pos (by rw [hgeti, hcapi]; exact hifl)]
    rw [distributeRemaining_of_nonpos _ _ rest _ (1 - 1) (by norm_num)]
    norm_num
  rw [hasg, hcore]
  have hmemi : i.Interviewer_ID ∈ dictKeys (initialAssignments shift ivs T) := by
    rw [hminit, dictKeys_map_pairs]
    exact List.mem_map.mpr ⟨i, hi, rfl⟩
  refine ⟨?_, ?_⟩
  · rw [dictGet_dictIncr_self _ _ _ hmemi, hgeti]
  · have hjne : j.Interviewer_ID ≠ i.Interviewer_ID := by
      intro he
      rw [he] at hij
      exact lt_irrefl _ hij
    rw [dictGet_dictIncr_ne _ _ _ _ hjne, hgetj]

section TieBreakWitness

attribute [local semireducible] Rat.mul Rat.inv Rat.add Rat.sub

/-- Witness for C7: capacities `A = 2, B = 1, C = 1`, target 2.  Floors are
`1, 0, 0` (one leftover), `B` and `C` tie on remainder `1/2` (maximal), both
below capacity; `B` (smaller identity) gets the extra slot, `C` does not. -/
theorem assign_slots_tie_break_witness :
    dictGet [(("A" : String), (1 : Int)), ("B", 1), ("C", 0)] "B" 0 =
      floorAssigned (slotCap "day" ivB1c) (totalAvailableFor "day" [ivA2c, ivB1c, ivC1c]) 2
        + 1 ∧
    dictGet [(("A" : String), (1 : Int)), ("B", 1), ("C", 0)] "C" 0 =
      floorAssigned (slotCap "day" ivC1c) (totalAvailableFor "day" [ivA2c, ivB1c, ivC1c]) 2 :=
  assign_slots_tie_break [ivA2c, ivB1c, ivC1c] 2 "day" ivB1c ivC1c (Or.inl rfl)
    (by decide) (by decide) (by decide) (by decide) (by decide) (by decide)
    (by decide) (by decide) (by decide) (by decide)
    [("A", 1), ("B", 1), ("C", 0)] [ivA2c, ivB1c, ivC1c] (by decide)

end TieBreakWitness
